import Mathlib

/-!
Shallow embedding of the loan-reconciliation core of the repository
(`src/utils/reconciliation.ts` and the ingestion/validation logic of
`src/components/FileUploader.tsx`), together with proofs of the spec's
testable properties.

Modelling conventions:
* JavaScript numbers are modelled as rationals (`ℚ`); the spec's data model
  calls every amount a canonical `Decimal`.
* A JavaScript `Map<string, number>` is modelled as an association list in
  insertion order: `set` of a present key updates it in place, `set` of a
  fresh key appends it, and iteration follows list order — exactly the
  iteration contract of a JS `Map`.
* A JavaScript `Set` built from a list of keys keeps the first occurrence of
  each element, in order, which `dedupFirst` below reproduces.
* `parseFloat` is modelled on the strings the code actually passes to it
  (digit/point/minus material, possibly with surrounding text): an optional
  sign, then the longest run of digits, then an optional point followed by
  the longest run of digits; the result is `none` when no digit was
  consumed, mirroring `NaN`.  Exponent notation and `Infinity` literals are
  not modelled: the call sites strip or never produce the letters they need.
-/

namespace LoanRecon

/-- JS `number | string` union used by the amount fields of the record
interfaces in `reconciliation.ts`. -/
inductive CurrencyInput where
  | num (q : ℚ)
  | str (s : String)
deriving DecidableEq

/-- `interface LendingRecord \x7b firm: string; loan_amount: number | string \x7d`. -/
structure LendingRecord where
  firm : String
  loan_amount : CurrencyInput
deriving DecidableEq

/-- `interface SettlementRecord \x7b firm: string; payment_amount: number | string \x7d`. -/
structure SettlementRecord where
  firm : String
  payment_amount : CurrencyInput
deriving DecidableEq

/-- The status literal union of `ReconciliationResult`. -/
inductive Status where
  | Balanced
  | Overpaid
  | Underpaid
deriving DecidableEq

/-- `interface ReconciliationResult` of `reconciliation.ts`. -/
structure ReconciliationResult where
  firm : String
  total_lent : ℚ
  total_paid : ℚ
  net_balance : ℚ
  status : Status
deriving DecidableEq

/-- Characters kept by `currency.replace(/[^\d.-]/g, '')`: digits, the
decimal point and the minus sign. -/
def keptChar (c : Char) : Bool := c.isDigit || c = '.' || c = '-'

/-- `currency.replace(/[^\d.-]/g, '')`. -/
def stripNonNumeric (s : String) : String := String.mk (s.data.filter keptChar)

/-- Value of a run of decimal digit characters. -/
def digitsVal (ds : List Char) : ℕ := ds.foldl (fun a c => 10 * a + (c.toNat - 48)) 0

/-- Optional sign at the head of a `parseFloat` input. -/
def floatSign (cs : List Char) : Bool × List Char :=
  match cs with
  | '-' :: rest => (true, rest)
  | '+' :: rest => (false, rest)
  | _ => (false, cs)

/-- Syntactic phase of JS `parseFloat`: skip leading whitespace, read an
optional sign, then the longest `digits [. digits]` prefix.  Returns the
sign and the integer and fraction digit runs, or `none` when no digit was
consumed (the `NaN` case). -/
def floatScan (s : String) : Option (Bool × List Char × List Char) :=
  let cs := s.data.dropWhile (fun c => c.isWhitespace)
  let signRest := floatSign cs
  let intPart := signRest.2.takeWhile Char.isDigit
  let rest := signRest.2.dropWhile Char.isDigit
  let frac :=
    match rest with
    | '.' :: r => r.takeWhile Char.isDigit
    | _ => []
  if intPart.isEmpty && frac.isEmpty then none
  else some (signRest.1, intPart, frac)

/-- Numeric value of a scanned float: `±(intPart.fracPart)`. -/
def floatVal (t : Bool × List Char × List Char) : ℚ :=
  (if t.1 then (-1 : ℚ) else 1) *
    ((digitsVal t.2.1 : ℚ) + (digitsVal t.2.2 : ℚ) / 10 ^ t.2.2.length)

/-- Model of JS `parseFloat` restricted as described in the file header;
`none` plays the role of `NaN`. -/
def jsParseFloat (s : String) : Option ℚ :=
  (floatScan s).map floatVal

/-- `parseCurrency` of `reconciliation.ts`: numbers pass through, strings are
stripped to digit/point/minus material and parsed, `NaN` becomes `0`. -/
def parseCurrency : CurrencyInput → ℚ
  | .num q => q
  | .str s =>
    match jsParseFloat (stripNonNumeric s) with
    | none => 0
    | some v => v

/-- `Map.get`: the value stored at `k`, if present. -/
def mapGet (m : List (String × ℚ)) (k : String) : Option ℚ :=
  (m.find? (fun p => p.1 == k)).map Prod.snd

/-- `Map.set`: update in place when the key is present, append otherwise
(JS `Map` keeps the original insertion position of an updated key). -/
def mapSet (m : List (String × ℚ)) (k : String) (v : ℚ) : List (String × ℚ) :=
  if m.any (fun p => p.1 == k) then m.map (fun p => if p.1 == k then (k, v) else p)
  else m ++ [(k, v)]

/-- JS `x || 0` applied to an optional number: `undefined` and `0` are
falsy, everything else passes through. -/
def jsOr0 (v : Option ℚ) : ℚ :=
  match v with
  | none => 0
  | some x => if x = 0 then 0 else x

/-- Insertion-order deduplication, keeping the first occurrence of each
element: the iteration order of `new Set(list)`. -/
def dedupFirst : List String → List String
  | [] => []
  | x :: xs => x :: (dedupFirst xs).filter (fun y => y != x)

/-- `reconcileLoans` of `reconciliation.ts` (the variant that routes every
amount through `parseCurrency`): sum per firm over both inputs, take the
union of firms, and emit one classified result per firm. -/
def reconcileLoans (lendings : List LendingRecord) (settlements : List SettlementRecord) :
    List ReconciliationResult :=
  let lentSummary := lendings.foldl
    (fun m record => mapSet m record.firm
      (jsOr0 (mapGet m record.firm) + parseCurrency record.loan_amount)) []
  let paidSummary := settlements.foldl
    (fun m record => mapSet m record.firm
      (jsOr0 (mapGet m record.firm) + parseCurrency record.payment_amount)) []
  let allFirms := dedupFirst (lentSummary.map Prod.fst ++ paidSummary.map Prod.fst)
  allFirms.map (fun firm =>
    let totalLent := jsOr0 (mapGet lentSummary firm)
    let totalPaid := jsOr0 (mapGet paidSummary firm)
    let netBalance := totalPaid - totalLent
    let status : Status :=
      if netBalance = 0 then .Balanced
      else if netBalance > 0 then .Overpaid
      else .Underpaid
    { firm := firm, total_lent := totalLent, total_paid := totalPaid,
      net_balance := netBalance, status := status })

/-- Evaluation helper: a successful scan determines the parsed value. -/
theorem parseCurrency_str_of_scan (s : String) (t : Bool × List Char × List Char)
    (h : floatScan (stripNonNumeric s) = some t) :
    parseCurrency (.str s) = floatVal t := by
  simp [parseCurrency, jsParseFloat, h]

/-- Evaluation helper: a failed scan yields the zero substitution. -/
theorem parseCurrency_str_of_scan_none (s : String)
    (h : floatScan (stripNonNumeric s) = none) :
    parseCurrency (.str s) = 0 := by
  simp [parseCurrency, jsParseFloat, h]

/-! ### Association-list map lemmas -/

theorem jsOr0_none : jsOr0 none = 0 := rfl

theorem jsOr0_some (x : ℚ) : jsOr0 (some x) = x := by
  simp only [jsOr0]
  split <;> simp_all

theorem find?_replace_self (m : List (String × ℚ)) (k : String) (v : ℚ) :
    (m.map (fun p => if p.1 == k then (k, v) else p)).find? (fun p => p.1 == k) =
      (m.find? (fun p => p.1 == k)).map (fun _ => (k, v)) := by
  induction m with
  | nil => rfl
  | cons p m ih =>
    simp only [List.map_cons]
    by_cases hp : p.1 = k
    · have hb : (p.1 == k) = true := by simpa using hp
      rw [if_pos hb,
        List.find?_cons_of_pos (p := fun (q : String × ℚ) => q.1 == k) _ (by simp),
        List.find?_cons_of_pos (p := fun (q : String × ℚ) => q.1 == k) _ hb]
      rfl
    · have hb : ¬ ((p.1 == k) = true) := by simpa using hp
      rw [if_neg hb,
        List.find?_cons_of_neg (p := fun (q : String × ℚ) => q.1 == k) _ hb,
        List.find?_cons_of_neg (p := fun (q : String × ℚ) => q.1 == k) _ hb]
      exact ih

theorem find?_replace_ne (m : List (String × ℚ)) (k k' : String) (v : ℚ) (hne : k' ≠ k) :
    (m.map (fun p => if p.1 == k then (k, v) else p)).find? (fun p => p.1 == k') =
      m.find? (fun p => p.1 == k') := by
  induction m with
  | nil => rfl
  | cons p m ih =>
    simp only [List.map_cons]
    by_cases hp : p.1 = k
    · have hb : (p.1 == k) = true := by simpa using hp
      have h1 : ¬ (((k, v).1 == k') = true) := by
        simp only [beq_iff_eq]
        exact fun h => hne h.symm
      have h2 : ¬ ((p.1 == k') = true) := by
        simp only [beq_iff_eq, hp]
        exact fun h => hne h.symm
      rw [if_pos hb, List.find?_cons_of_neg (p := fun (q : String × ℚ) => q.1 == k') _ h1,
        List.find?_cons_of_neg (p := fun (q : String × ℚ) => q.1 == k') _ h2]
      exact ih
    · have hb : ¬ ((p.1 == k) = true) := by simpa using hp
      rw [if_neg hb]
      by_cases hpk' : p.1 = k'
      · have hb' : (p.1 == k') = true := by simpa using hpk'
        rw [List.find?_cons_of_pos (p := fun (q : String × ℚ) => q.1 == k') _ hb',
          List.find?_cons_of_pos (p := fun (q : String × ℚ) => q.1 == k') _ hb']
      · have hb' : ¬ ((p.1 == k') = true) := by simpa using hpk'
        rw [List.find?_cons_of_neg (p := fun (q : String × ℚ) => q.1 == k') _ hb',
          List.find?_cons_of_neg (p := fun (q : String × ℚ) => q.1 == k') _ hb']
        exact ih

theorem fst_replace (m : List (String × ℚ)) (k : String) (v : ℚ) :
    (m.map (fun p => if p.1 == k then (k, v) else p)).map Prod.fst = m.map Prod.fst := by
  induction m with
  | nil => rfl
  | cons p m ih =>
    simp only [List.map_cons]
    by_cases hp : p.1 = k
    · have hb : (p.1 == k) = true := by simpa using hp
      rw [if_pos hb]
      simp only [List.map_cons, ih]
      simp [hp]
    · have hb : ¬ ((p.1 == k) = true) := by simpa using hp
      rw [if_neg hb]
      simp only [List.map_cons, ih]

theorem any_key_iff (m : List (String × ℚ)) (k : String) :
    m.any (fun p => p.1 == k) = true ↔ k ∈ m.map Prod.fst := by
  simp [List.any_eq_true, List.mem_map]

theorem find?_eq_none_of_not_mem (m : List (String × ℚ)) (k : String)
    (h : k ∉ m.map Prod.fst) : m.find? (fun p => p.1 == k) = none := by
  rw [List.find?_eq_none]
  intro p hp
  simp only [beq_iff_eq]
  intro hk
  exact h (List.mem_map.mpr ⟨p, hp, hk⟩)

theorem mapGet_mapSet_self (m : List (String × ℚ)) (k : String) (v : ℚ) :
    mapGet (mapSet m k v) k = some v := by
  unfold mapSet
  by_cases h : k ∈ m.map Prod.fst
  · rw [if_pos ((any_key_iff m k).mpr h)]
    unfold mapGet
    rw [find?_replace_self]
    rcases List.mem_map.mp h with ⟨p, hp, hk⟩
    have : (m.find? (fun p => p.1 == k)).isSome := by
      rw [List.find?_isSome]
      exact ⟨p, hp, by simpa using hk⟩
    rcases Option.isSome_iff_exists.mp this with ⟨q, hq⟩
    rw [hq]
    rfl
  · rw [if_neg (fun hc => h ((any_key_iff m k).mp hc))]
    unfold mapGet
    rw [List.find?_append, find?_eq_none_of_not_mem m k h]
    simp

theorem mapGet_mapSet_ne (m : List (String × ℚ)) (k k' : String) (v : ℚ) (hne : k' ≠ k) :
    mapGet (mapSet m k v) k' = mapGet m k' := by
  unfold mapSet
  by_cases h : m.any (fun p => p.1 == k) = true
  · rw [if_pos h]
    unfold mapGet
    rw [find?_replace_ne m k k' v hne]
  · rw [if_neg h]
    unfold mapGet
    rw [List.find?_append]
    have : ([(k, v)].find? (fun p => p.1 == k')) = none := by
      rw [List.find?_eq_none]
      intro p hp
      simp only [List.mem_singleton] at hp
      subst hp
      simp only [beq_iff_eq]
      exact fun hx => hne hx.symm
    rw [this]
    simp

theorem fst_mapSet (m : List (String × ℚ)) (k : String) (v : ℚ) :
    (mapSet m k v).map Prod.fst =
      if k ∈ m.map Prod.fst then m.map Prod.fst else m.map Prod.fst ++ [k] := by
  unfold mapSet
  by_cases h : k ∈ m.map Prod.fst
  · rw [if_pos ((any_key_iff m k).mpr h), if_pos h, fst_replace]
  · rw [if_neg (fun hc => h ((any_key_iff m k).mp hc)), if_neg h]
    simp

/-! ### Summary-fold lemmas -/

/-- Generic shape of the two per-firm summation folds in `reconcileLoans`,
applied to already-normalized key/amount pairs. -/
def buildSummary (rows : List (String × ℚ)) : List (String × ℚ) :=
  rows.foldl (fun m r => mapSet m r.1 (jsOr0 (mapGet m r.1) + r.2)) []

/-- Key/normalized-amount pairs fed into the lending fold. -/
def lentRows (lendings : List LendingRecord) : List (String × ℚ) :=
  lendings.map (fun r => (r.firm, parseCurrency r.loan_amount))

/-- Key/normalized-amount pairs fed into the settlement fold. -/
def paidRows (settlements : List SettlementRecord) : List (String × ℚ) :=
  settlements.map (fun r => (r.firm, parseCurrency r.payment_amount))

/-- Total amount carried by the rows keyed `k`. -/
def sumFor (k : String) (rows : List (String × ℚ)) : ℚ :=
  ((rows.filter (fun r => r.1 == k)).map Prod.snd).sum

theorem sumFor_nil (k : String) : sumFor k [] = 0 := rfl

theorem sumFor_cons (k : String) (r : String × ℚ) (rows : List (String × ℚ)) :
    sumFor k (r :: rows) = (if r.1 = k then r.2 else 0) + sumFor k rows := by
  by_cases h : r.1 = k
  · simp [sumFor, List.filter_cons, h]
  · simp [sumFor, List.filter_cons, h]

theorem sumFor_append_single (k : String) (rows : List (String × ℚ)) (r : String × ℚ) :
    sumFor k (rows ++ [r]) = sumFor k rows + (if r.1 = k then r.2 else 0) := by
  by_cases h : r.1 = k
  · simp [sumFor, List.filter_append, List.filter_cons, h]
  · simp [sumFor, List.filter_append, List.filter_cons, h]

theorem sumFor_eq_zero_of_not_mem (k : String) (rows : List (String × ℚ))
    (h : k ∉ rows.map Prod.fst) : sumFor k rows = 0 := by
  have : rows.filter (fun r => r.1 == k) = [] := by
    rw [List.filter_eq_nil_iff]
    intro p hp
    simp only [beq_iff_eq]
    exact fun hk => h (List.mem_map.mpr ⟨p, hp, hk⟩)
  simp [sumFor, this]

theorem sumFor_perm (k : String) (rows rows' : List (String × ℚ)) (h : rows.Perm rows') :
    sumFor k rows = sumFor k rows' :=
  List.Perm.sum_eq ((h.filter _).map _)

theorem buildSummary_append (rows : List (String × ℚ)) (r : String × ℚ) :
    buildSummary (rows ++ [r]) =
      mapSet (buildSummary rows) r.1 (jsOr0 (mapGet (buildSummary rows) r.1) + r.2) := by
  simp [buildSummary, List.foldl_append]

theorem jsOr0_mapGet_buildSummary (rows : List (String × ℚ)) (k : String) :
    jsOr0 (mapGet (buildSummary rows) k) = sumFor k rows := by
  induction rows using List.reverseRecOn with
  | nil => rfl
  | append_singleton rows r ih =>
    rw [buildSummary_append, sumFor_append_single]
    by_cases hk : k = r.1
    · subst hk
      rw [mapGet_mapSet_self, jsOr0_some, ih, if_pos rfl]
    · rw [mapGet_mapSet_ne _ _ _ _ hk, ih, if_neg (fun h => hk h.symm), add_zero]

/-! ### dedupFirst lemmas -/

theorem mem_dedupFirst (a : String) (xs : List String) : a ∈ dedupFirst xs ↔ a ∈ xs := by
  induction xs with
  | nil => simp [dedupFirst]
  | cons x xs ih =>
    by_cases h : a = x
    · simp [dedupFirst, h]
    · simp [dedupFirst, List.mem_filter, h, ih]

theorem nodup_dedupFirst (xs : List String) : (dedupFirst xs).Nodup := by
  induction xs with
  | nil => simp [dedupFirst]
  | cons x xs ih =>
    simp only [dedupFirst, List.nodup_cons]
    refine ⟨?_, List.Nodup.filter _ ih⟩
    intro hmem
    rw [List.mem_filter] at hmem
    exact absurd hmem.2 (by simp)

theorem dedupFirst_append_single (fs : List String) (f : String) :
    dedupFirst (fs ++ [f]) = if f ∈ fs then dedupFirst fs else dedupFirst fs ++ [f] := by
  induction fs with
  | nil => simp [dedupFirst]
  | cons x fs ih =>
    rw [List.cons_append]
    show x :: (dedupFirst (fs ++ [f])).filter (fun y => y != x) =
      if f ∈ x :: fs then dedupFirst (x :: fs) else dedupFirst (x :: fs) ++ [f]
    rw [ih]
    by_cases hf : f ∈ fs
    · rw [if_pos hf, if_pos (List.mem_cons_of_mem x hf)]
      rfl
    · rw [if_neg hf]
      by_cases hfx : f = x
      · rw [if_pos (by simp [hfx]), List.filter_append]
        simp [dedupFirst, hfx]
      · rw [if_neg (by simp [hfx, hf]), List.filter_append]
        simp [dedupFirst, hfx]

theorem keys_buildSummary (rows : List (String × ℚ)) :
    (buildSummary rows).map Prod.fst = dedupFirst (rows.map Prod.fst) := by
  induction rows using List.reverseRecOn with
  | nil => rfl
  | append_singleton rows r ih =>
    rw [buildSummary_append, fst_mapSet, ih, List.map_append, List.map_singleton,
      dedupFirst_append_single]
    by_cases h : r.1 ∈ rows.map Prod.fst
    · rw [if_pos ((mem_dedupFirst _ _).mpr h), if_pos h]
    · rw [if_neg (fun hc => h ((mem_dedupFirst _ _).mp hc)), if_neg h]

/-! ### Characterization of reconcileLoans -/

theorem lentSummary_eq (l : List LendingRecord) :
    l.foldl (fun m record => mapSet m record.firm
      (jsOr0 (mapGet m record.firm) + parseCurrency record.loan_amount)) [] =
      buildSummary (lentRows l) := by
  rw [buildSummary, lentRows, List.foldl_map]

theorem paidSummary_eq (s : List SettlementRecord) :
    s.foldl (fun m record => mapSet m record.firm
      (jsOr0 (mapGet m record.firm) + parseCurrency record.payment_amount)) [] =
      buildSummary (paidRows s) := by
  rw [buildSummary, paidRows, List.foldl_map]

theorem fst_lentRows (l : List LendingRecord) :
    (lentRows l).map Prod.fst = l.map LendingRecord.firm := by
  simp [lentRows, List.map_map, Function.comp]

theorem fst_paidRows (s : List SettlementRecord) :
    (paidRows s).map Prod.fst = s.map SettlementRecord.firm := by
  simp [paidRows, List.map_map, Function.comp]

/-- The result `reconcileLoans` emits for one firm, phrased with per-firm
filtered sums. -/
def mkResult (l : List LendingRecord) (s : List SettlementRecord) (firm : String) :
    ReconciliationResult :=
  { firm := firm
    total_lent := sumFor firm (lentRows l)
    total_paid := sumFor firm (paidRows s)
    net_balance := sumFor firm (paidRows s) - sumFor firm (lentRows l)
    status :=
      if sumFor firm (paidRows s) - sumFor firm (lentRows l) = 0 then .Balanced
      else if sumFor firm (paidRows s) - sumFor firm (lentRows l) > 0 then .Overpaid
      else .Underpaid }

/-- The key union iterated by `reconcileLoans`, in its iteration order. -/
def allFirmsOf (l : List LendingRecord) (s : List SettlementRecord) : List String :=
  dedupFirst (dedupFirst (l.map LendingRecord.firm) ++ dedupFirst (s.map SettlementRecord.firm))

theorem reconcileLoans_eq (l : List LendingRecord) (s : List SettlementRecord) :
    reconcileLoans l s = (allFirmsOf l s).map (mkResult l s) := by
  unfold reconcileLoans
  simp only [lentSummary_eq, paidSummary_eq, keys_buildSummary, fst_lentRows, fst_paidRows]
  apply List.map_congr_left
  intro firm _
  simp only [jsOr0_mapGet_buildSummary]
  rfl

theorem reconcileLoans_firms (l : List LendingRecord) (s : List SettlementRecord) :
    (reconcileLoans l s).map ReconciliationResult.firm = allFirmsOf l s := by
  rw [reconcileLoans_eq, List.map_map]
  have : (ReconciliationResult.firm ∘ mkResult l s) = id := by
    funext firm
    rfl
  rw [this, List.map_id]

theorem mem_allFirmsOf (l : List LendingRecord) (s : List SettlementRecord) (k : String) :
    k ∈ allFirmsOf l s ↔ k ∈ l.map LendingRecord.firm ∨ k ∈ s.map SettlementRecord.firm := by
  simp [allFirmsOf, mem_dedupFirst, List.mem_append]

theorem nodup_allFirmsOf (l : List LendingRecord) (s : List SettlementRecord) :
    (allFirmsOf l s).Nodup := nodup_dedupFirst _

/-! ### Sum helpers -/

theorem sum_map_add_q (L : List String) (f g : String → ℚ) :
    (L.map (fun k => f k + g k)).sum = (L.map f).sum + (L.map g).sum := by
  induction L with
  | nil => simp
  | cons x L ih =>
    simp only [List.map_cons, List.sum_cons, ih]
    ring

theorem sum_map_sub_q (L : List String) (f g : String → ℚ) :
    (L.map (fun k => f k - g k)).sum = (L.map f).sum - (L.map g).sum := by
  induction L with
  | nil => simp
  | cons x L ih =>
    simp only [List.map_cons, List.sum_cons, ih]
    ring

theorem sum_map_ite_single (L : List String) (a : String) (v : ℚ) (hnd : L.Nodup)
    (ha : a ∈ L) : (L.map (fun k => if a = k then v else 0)).sum = v := by
  induction L with
  | nil => cases ha
  | cons x L ih =>
    rw [List.nodup_cons] at hnd
    rcases List.mem_cons.mp ha with h | h
    · subst h
      simp only [List.map_cons, List.sum_cons, if_pos rfl]
      have hz : ∀ k ∈ L, (if a = k then v else 0) = 0 := by
        intro k hk
        rw [if_neg]
        intro hak
        exact hnd.1 (by rwa [hak])
      rw [List.map_congr_left hz]
      simp
    · have hax : ¬ a = x := by
        intro h'
        exact hnd.1 (by rwa [h'] at h)
      simp only [List.map_cons, List.sum_cons, if_neg hax, ih hnd.2 h, zero_add]

theorem sum_sumFor (rows : List (String × ℚ)) (L : List String) (hnd : L.Nodup)
    (hcov : ∀ r ∈ rows, r.1 ∈ L) :
    (L.map (fun k => sumFor k rows)).sum = (rows.map Prod.snd).sum := by
  induction rows with
  | nil => simp [sumFor_nil]
  | cons r rows ih =>
    have hr : r.1 ∈ L := hcov r (List.mem_cons_self r rows)
    have hcov' : ∀ q ∈ rows, q.1 ∈ L := fun q hq => hcov q (List.mem_cons_of_mem r hq)
    simp only [sumFor_cons]
    rw [sum_map_add_q L (fun k => if r.1 = k then r.2 else 0) (fun k => sumFor k rows),
      sum_map_ite_single L r.1 r.2 hnd hr, ih hcov']
    simp

theorem snd_lentRows (l : List LendingRecord) :
    (lentRows l).map Prod.snd = l.map (fun r => parseCurrency r.loan_amount) := by
  simp [lentRows, List.map_map, Function.comp]

theorem snd_paidRows (s : List SettlementRecord) :
    (paidRows s).map Prod.snd = s.map (fun r => parseCurrency r.payment_amount) := by
  simp [paidRows, List.map_map, Function.comp]

/-! ### Claim C1 -/

/-- C1: union completeness of `reconcileLoans` — every firm appearing in
either input appears exactly once among the output firms, no other firm
appears, and a firm present on only one side has a zero total on the
missing side. -/
theorem reconcileLoans_union_complete (l : List LendingRecord) (s : List SettlementRecord) :
    (∀ k : String, k ∈ (reconcileLoans l s).map ReconciliationResult.firm ↔
      (k ∈ l.map LendingRecord.firm ∨ k ∈ s.map SettlementRecord.firm))
    ∧ ((reconcileLoans l s).map ReconciliationResult.firm).Nodup
    ∧ (∀ r ∈ reconcileLoans l s, r.firm ∉ s.map SettlementRecord.firm → r.total_paid = 0)
    ∧ (∀ r ∈ reconcileLoans l s, r.firm ∉ l.map LendingRecord.firm → r.total_lent = 0) := by
  refine ⟨?_, ?_, ?_, ?_⟩
  · intro k
    rw [reconcileLoans_firms]
    exact mem_allFirmsOf l s k
  · rw [reconcileLoans_firms]
    exact nodup_allFirmsOf l s
  · intro r hr hnot
    rw [reconcileLoans_eq] at hr
    rcases List.mem_map.mp hr with ⟨firm, _, rfl⟩
    have hmem : firm ∉ (paidRows s).map Prod.fst := by
      rw [fst_paidRows]
      exact hnot
    exact sumFor_eq_zero_of_not_mem _ _ hmem
  · intro r hr hnot
    rw [reconcileLoans_eq] at hr
    rcases List.mem_map.mp hr with ⟨firm, _, rfl⟩
    have hmem : firm ∉ (lentRows l).map Prod.fst := by
      rw [fst_lentRows]
      exact hnot
    exact sumFor_eq_zero_of_not_mem _ _ hmem

/-- C1 witness: on a concrete one-sided input, the firm appears in the
output and its missing-side total is zero. -/
theorem reconcileLoans_union_complete_witness :
    "A" ∈ (reconcileLoans [] [⟨"A", .num 5⟩]).map ReconciliationResult.firm :=
  (reconcileLoans_union_complete [] [⟨"A", .num 5⟩]).1 "A" |>.mpr (Or.inr (by decide))

/-! ### Claim C2 -/

/-- C2: status consistency — in every emitted result the net balance is
total paid minus total lent, and the status is exactly the sign
classification of the net balance. -/
theorem reconcileLoans_status_consistent (l : List LendingRecord) (s : List SettlementRecord) :
    ∀ r ∈ reconcileLoans l s,
      r.net_balance = r.total_paid - r.total_lent ∧
      (r.status = Status.Balanced ↔ r.net_balance = 0) ∧
      (r.status = Status.Overpaid ↔ r.net_balance > 0) ∧
      (r.status = Status.Underpaid ↔ r.net_balance < 0) := by
  intro r hr
  rw [reconcileLoans_eq] at hr
  rcases List.mem_map.mp hr with ⟨firm, _, rfl⟩
  refine ⟨rfl, ?_⟩
  by_cases h0 : sumFor firm (paidRows s) - sumFor firm (lentRows l) = 0
  · simp [mkResult, h0]
  · by_cases hpos : sumFor firm (paidRows s) - sumFor firm (lentRows l) > 0
    · simp [mkResult, h0, hpos, not_lt.mpr (le_of_lt hpos)]
    · have hneg : sumFor firm (paidRows s) - sumFor firm (lentRows l) < 0 :=
        lt_of_le_of_ne (not_lt.mp hpos) h0
      simp [mkResult, h0, hpos, hneg]

/-- C2 witness at a concrete settlements-only input. -/
theorem reconcileLoans_status_consistent_witness :
    (mkResult [] [⟨"A", .num 5⟩] "A").net_balance =
      (mkResult [] [⟨"A", .num 5⟩] "A").total_paid -
        (mkResult [] [⟨"A", .num 5⟩] "A").total_lent :=
  (reconcileLoans_status_consistent [] [⟨"A", .num 5⟩] (mkResult [] [⟨"A", .num 5⟩] "A")
    (by rw [reconcileLoans_eq]; exact List.mem_map_of_mem _ (by decide))).1

/-! ### Claim C3 -/

/-- C3: conservation — the net balances of all results sum to the
normalized settlement total minus the normalized lending total. -/
theorem reconcileLoans_conservation (l : List LendingRecord) (s : List SettlementRecord) :
    ((reconcileLoans l s).map ReconciliationResult.net_balance).sum =
      (s.map (fun r => parseCurrency r.payment_amount)).sum -
        (l.map (fun r => parseCurrency r.loan_amount)).sum := by
  rw [reconcileLoans_eq, List.map_map]
  have hmap : (ReconciliationResult.net_balance ∘ mkResult l s) =
      fun firm => sumFor firm (paidRows s) - sumFor firm (lentRows l) := rfl
  rw [hmap,
    sum_map_sub_q (allFirmsOf l s) (fun k => sumFor k (paidRows s))
      (fun k => sumFor k (lentRows l)),
    sum_sumFor (paidRows s) (allFirmsOf l s) (nodup_allFirmsOf l s) ?_,
    sum_sumFor (lentRows l) (allFirmsOf l s) (nodup_allFirmsOf l s) ?_,
    snd_lentRows, snd_paidRows]
  · intro q hq
    have : q.1 ∈ l.map LendingRecord.firm := by
      rw [← fst_lentRows]
      exact List.mem_map_of_mem _ hq
    exact (mem_allFirmsOf l s q.1).mpr (Or.inl this)
  · intro q hq
    have : q.1 ∈ s.map SettlementRecord.firm := by
      rw [← fst_paidRows]
      exact List.mem_map_of_mem _ hq
    exact (mem_allFirmsOf l s q.1).mpr (Or.inr this)

/-! ### Claim C4 -/

theorem mkResult_perm (l l' : List LendingRecord) (s s' : List SettlementRecord)
    (hl : l.Perm l') (hs : s.Perm s') : mkResult l' s' = mkResult l s := by
  funext firm
  unfold mkResult
  rw [sumFor_perm firm (lentRows l') (lentRows l) (hl.map _).symm,
    sumFor_perm firm (paidRows s') (paidRows s) (hs.map _).symm]

theorem allFirmsOf_perm (l l' : List LendingRecord) (s s' : List SettlementRecord)
    (hl : l.Perm l') (hs : s.Perm s') : (allFirmsOf l' s').Perm (allFirmsOf l s) := by
  apply (List.perm_ext_iff_of_nodup (nodup_allFirmsOf _ _) (nodup_allFirmsOf _ _)).mpr
  intro k
  rw [mem_allFirmsOf, mem_allFirmsOf, (hl.map LendingRecord.firm).mem_iff,
    (hs.map SettlementRecord.firm).mem_iff]

/-- C4: calling `reconcileLoans` twice on the same inputs yields the same
results, and permuting the rows of the inputs yields a result list equal up
to ordering. -/
theorem reconcileLoans_idempotent_perm (l l' : List LendingRecord) (s s' : List SettlementRecord)
    (hl : l.Perm l') (hs : s.Perm s') :
    reconcileLoans l s = reconcileLoans l s ∧
      (reconcileLoans l' s').Perm (reconcileLoans l s) := by
  refine ⟨rfl, ?_⟩
  rw [reconcileLoans_eq, reconcileLoans_eq, mkResult_perm l l' s s' hl hs]
  exact (allFirmsOf_perm l l' s s' hl hs).map _

/-- C4 witness: a concrete two-row permutation. -/
theorem reconcileLoans_idempotent_perm_witness :
    (reconcileLoans [⟨"B", .num 2⟩, ⟨"A", .num 1⟩] []).Perm
      (reconcileLoans [⟨"A", .num 1⟩, ⟨"B", .num 2⟩] []) :=
  (reconcileLoans_idempotent_perm [⟨"A", .num 1⟩, ⟨"B", .num 2⟩]
    [⟨"B", .num 2⟩, ⟨"A", .num 1⟩] [] [] (by decide) (by decide)).2

/-! ### Claim C10 -/

theorem dedupFirst_eq_self (xs : List String) (h : xs.Nodup) : dedupFirst xs = xs := by
  induction xs with
  | nil => rfl
  | cons x xs ih =>
    rw [List.nodup_cons] at h
    show x :: (dedupFirst xs).filter (fun y => y != x) = x :: xs
    rw [ih h.2, List.filter_eq_self.mpr]
    intro a ha
    simp only [bne_iff_ne, ne_eq, decide_eq_true_eq]
    intro hax
    exact h.1 (by rwa [hax] at ha)

theorem contains_dedupFirst (L : List String) (k : String) :
    (dedupFirst L).contains k = L.contains k := by
  simp [List.contains, mem_dedupFirst]

theorem dedupFirst_append (xs ys : List String) :
    dedupFirst (xs ++ ys) =
      dedupFirst xs ++ (dedupFirst ys).filter (fun y => !(xs.contains y)) := by
  induction xs with
  | nil => simp [dedupFirst]
  | cons x xs ih =>
    rw [List.cons_append]
    show x :: (dedupFirst (xs ++ ys)).filter (fun y => y != x) = _
    rw [ih, List.filter_append]
    show x :: ((dedupFirst xs).filter (fun y => y != x) ++
      ((dedupFirst ys).filter (fun y => !(xs.contains y))).filter (fun y => y != x)) = _
    rw [List.filter_filter]
    have hpred : ∀ a ∈ dedupFirst ys,
        ((a != x) && !(xs.contains a)) = !((x :: xs).contains a) := by
      intro a _
      by_cases hax : a = x
      · simp [hax, List.contains]
      · by_cases haxs : a ∈ xs
        · simp [hax, haxs, List.contains]
        · simp [hax, haxs, List.contains]
    rw [List.filter_congr hpred]
    rfl

/-- C10: deterministic first-appearance output order — the output lists the
lending firms in first-occurrence order followed by the settlement-only
firms in first-occurrence order, and repeated calls return the identical
sequence. -/
theorem reconcileLoans_output_order (l : List LendingRecord) (s : List SettlementRecord) :
    (reconcileLoans l s).map ReconciliationResult.firm =
      dedupFirst (l.map LendingRecord.firm) ++
        (dedupFirst (s.map SettlementRecord.firm)).filter
          (fun k => !((l.map LendingRecord.firm).contains k)) ∧
    reconcileLoans l s = reconcileLoans l s := by
  refine ⟨?_, rfl⟩
  rw [reconcileLoans_firms]
  unfold allFirmsOf
  rw [dedupFirst_append, dedupFirst_eq_self _ (nodup_dedupFirst _),
    dedupFirst_eq_self _ (nodup_dedupFirst _)]
  congr 1
  apply List.filter_congr
  intro k _
  rw [contains_dedupFirst]

/-! ### Ingestion and validation (FileUploader.tsx) -/

/-- A raw JS cell value: text, number, or `undefined` (absent field). -/
inductive JSVal where
  | str (s : String)
  | num (q : ℚ)
  | undefined
deriving DecidableEq

/-- A parsed row object: field name/value pairs in insertion order. -/
abbrev RawRow := List (String × JSVal)

/-- Structured form of the `Error`s thrown by `parseAndValidate`; each
constructor records the data interpolated into the thrown message, so the
missing-columns error carries the full enumerated list. -/
inductive UploadError where
  | noData
  | missingColumns (cols : List String)
  | invalidAmount (source : String) (line : ℕ) (raw : JSVal)
  | invalidCompanyName (source : String) (line : ℕ)
deriving DecidableEq

/-- JS `String.prototype.trim`: drop whitespace from both ends.  Modelled
directly on the character list (Lean's own `String.trim` is not used so the
definition stays executable by the kernel). -/
def jsTrim (s : String) : String :=
  String.mk (((s.data.dropWhile Char.isWhitespace).reverse.dropWhile Char.isWhitespace).reverse)

/-- `row[header]`: `undefined` when the key is absent. -/
def rowGet (row : RawRow) (k : String) : JSVal :=
  match row.find? (fun p => p.1 == k) with
  | some p => p.2
  | none => .undefined

/-- `typeof v === 'string' ? v.trim() : v`. -/
def trimVal : JSVal → JSVal
  | .str s => .str (jsTrim s)
  | v => v

/-- JS `toLowerCase`, character by character. -/
def lowerStr (s : String) : String := String.mk (s.data.map Char.toLower)

/-- Whether `pat` occurs at the head of `cs`. -/
def leadsWith : List Char → List Char → Bool
  | [], _ => true
  | _ :: _, [] => false
  | a :: as, b :: bs => a == b && leadsWith as bs

/-- JS `String.includes`: `pat` occurs somewhere in the char list. -/
def includesSub (pat : List Char) : List Char → Bool
  | [] => leadsWith pat []
  | c :: rest => leadsWith pat (c :: rest) || includesSub pat rest

/-- `value.replace(/,/g, '')`: remove every comma. -/
def removeCommas (s : String) : String := String.mk (s.data.filter (fun c => c != ','))

/-- Case-insensitive prefix test used by `replace(/INR/i, '')`. -/
def leadsWithCaseless (pat cs : List Char) : Bool :=
  leadsWith (pat.map Char.toLower) (cs.map Char.toLower)

/-- Remove the first case-insensitive occurrence of `pat`, if any. -/
def removeFirstCaseless (pat : List Char) : List Char → List Char
  | [] => []
  | c :: rest =>
    if leadsWithCaseless pat (c :: rest) then (c :: rest).drop pat.length
    else c :: removeFirstCaseless pat rest

/-- `value.replace(/INR/i, '')`. -/
def removeINR (s : String) : String :=
  String.mk (removeFirstCaseless ['I', 'N', 'R'] s.data)

/-- JS `parseFloat` applied to a value that may not be a string: numbers
round-trip through their decimal rendering unchanged, `undefined` gives
`NaN`. -/
def parseFloatVal : JSVal → Option ℚ
  | .str s => jsParseFloat s
  | .num q => some q
  | .undefined => none

/-- One pass of the `rawData.forEach` body of `parseAndValidate` in
`FileUploader.tsx`: build the validated record for the 0-based data row
`i`, rejecting a bad amount or an empty/non-text `company_name` with the
human-facing line number `i + 2`. -/
def validateRow (expectedColumns : List String) (row : RawRow) (source : String) (i : ℕ) :
    Except UploadError RawRow :=
  expectedColumns.foldlM (fun record header =>
    let valueRaw := rowGet row header
    let value := trimVal valueRaw
    if includesSub "amount".data (lowerStr header).data then
      let cleaned : JSVal :=
        match value with
        | .str t => .str (jsTrim (removeINR (removeCommas t)))
        | v => v
      match parseFloatVal cleaned with
      | none => .error (.invalidAmount source (i + 2) value)
      | some parsed => .ok (record ++ [(header, .num parsed)])
    else if header == "company_name" then
      match value with
      | .str t =>
        if t == "" then .error (.invalidCompanyName source (i + 2))
        else .ok (record ++ [(header, value)])
      | _ => .error (.invalidCompanyName source (i + 2))
    else .ok (record ++ [(header, value)])) []

/-- The trimmed header names of a row object (`Object.keys(rawData[0])`
after `.trim()`). -/
def headersOf (row : RawRow) : List String := (row.map Prod.fst).map jsTrim

/-- `parseAndValidate` of `FileUploader.tsx`: reject empty data, reject
missing required columns naming all of them, then validate row by row. -/
def parseAndValidate (expectedColumns : List String) (rawData : List RawRow) (source : String) :
    Except UploadError (List RawRow) :=
  match rawData with
  | [] => .error .noData
  | first :: rest =>
    let missingColumns := expectedColumns.filter (fun col => !((headersOf first).contains col))
    if missingColumns.length > 0 then .error (.missingColumns missingColumns)
    else (first :: rest).enum.mapM (fun p => validateRow expectedColumns p.2 source p.1)

/-! ### Claim C5 -/

/-- C5: when one or more required columns are absent from the trimmed
header row, `parseAndValidate` fails with a missing-columns error that
enumerates exactly the absent required columns — all of them, not just the
first. -/
theorem parseAndValidate_names_all_missing (expected : List String) (first : RawRow)
    (rest : List RawRow) (source : String)
    (h : expected.filter (fun col => !((headersOf first).contains col)) ≠ []) :
    parseAndValidate expected (first :: rest) source =
      .error (.missingColumns (expected.filter (fun col => !((headersOf first).contains col))))
    ∧ ∀ c, c ∈ expected.filter (fun col => !((headersOf first).contains col)) ↔
        (c ∈ expected ∧ c ∉ headersOf first) := by
  constructor
  · show (if (expected.filter (fun col => !((headersOf first).contains col))).length > 0
        then Except.error (UploadError.missingColumns
          (expected.filter (fun col => !((headersOf first).contains col))))
        else (first :: rest).enum.mapM (fun p => validateRow expected p.2 source p.1)) = _
    rw [if_pos (List.length_pos.mpr h)]
  · intro c
    simp [List.mem_filter, List.contains]

/-- C5 witness: a header row `firm, amount` lacks both of the required
columns, and the error names both. -/
theorem parseAndValidate_names_all_missing_witness :
    parseAndValidate ["counterparty_id", "loan_amount"]
        [[("firm", JSVal.str "x"), ("amount", JSVal.str "1")]] "f.csv" =
      .error (.missingColumns ["counterparty_id", "loan_amount"]) :=
  (parseAndValidate_names_all_missing ["counterparty_id", "loan_amount"]
    [("firm", JSVal.str "x"), ("amount", JSVal.str "1")] [] "f.csv" (by decide)).1

/-! ### Claim C6 -/

/-- C6 (behavior of the code at the failing input): with the app's expected
columns `firm, loan_amount` (as passed by `Index.tsx`), a data row whose
`firm` field is the empty string passes validation — no record-level error
is raised, because the only non-emptiness check in `parseAndValidate` is
hard-coded to a column literally named `company_name`. -/
theorem parseAndValidate_empty_firm_accepted :
    parseAndValidate ["firm", "loan_amount"]
        [[("firm", JSVal.str ""), ("loan_amount", JSVal.str "100")]] "lendings.csv" =
      .ok [[("firm", JSVal.str ""), ("loan_amount", JSVal.num 100)]] := by
  have hv : floatVal (false, ['1', '0', '0'], []) = 100 := by
    have hd : digitsVal ['1', '0', '0'] = 100 := by decide
    have hd0 : digitsVal [] = 0 := rfl
    norm_num [floatVal, hd, hd0]
  calc parseAndValidate ["firm", "loan_amount"]
        [[("firm", JSVal.str ""), ("loan_amount", JSVal.str "100")]] "lendings.csv"
      = .ok [[("firm", JSVal.str ""),
          ("loan_amount", JSVal.num (floatVal (false, ['1', '0', '0'], [])))]] := rfl
    _ = .ok [[("firm", JSVal.str ""), ("loan_amount", JSVal.num 100)]] := by rw [hv]

/-! ### Claim C7 -/

/-- C7: the normalizer returns numeric input unchanged (including negative
values) and parses currency-formatted text after stripping every character
other than digits, the decimal point and the minus sign. -/
theorem parseCurrency_wellformed :
    (∀ q : ℚ, parseCurrency (.num q) = q) ∧
    parseCurrency (.str "₹1,200.50") = 1200.5 ∧
    parseCurrency (.str "100.00 INR") = 100 ∧
    parseCurrency (.num (-42)) = -42 := by
  refine ⟨fun q => rfl, ?_, ?_, rfl⟩
  · rw [parseCurrency_str_of_scan _ (false, ['1', '2', '0', '0'], ['5', '0']) (by decide)]
    have h1 : digitsVal ['1', '2', '0', '0'] = 1200 := by decide
    have h2 : digitsVal ['5', '0'] = 50 := by decide
    norm_num [floatVal, h1, h2]
  · rw [parseCurrency_str_of_scan _ (false, ['1', '0', '0'], ['0', '0']) (by decide)]
    have h1 : digitsVal ['1', '0', '0'] = 100 := by decide
    have h2 : digitsVal ['0', '0'] = 0 := by decide
    norm_num [floatVal, h1, h2]

/-! ### Claim C8 -/

/-- C8: the normalizer is total — the empty string, and any text whose
stripped remainder fails to parse, deterministically produce the zero
substitution instead of a crash. -/
theorem parseCurrency_total_zero_policy :
    parseCurrency (.str "") = 0 ∧
    (∀ s : String, jsParseFloat (stripNonNumeric s) = none → parseCurrency (.str s) = 0) := by
  constructor
  · exact parseCurrency_str_of_scan_none _ (by decide)
  · intro s h
    simp [parseCurrency, h]

/-- C8 witness: a fully non-numeric string is substituted by zero. -/
theorem parseCurrency_total_zero_policy_witness :
    parseCurrency (.str "abc") = 0 :=
  parseCurrency_total_zero_policy.2 "abc" (by decide)

/-! ### Claim C9 -/

/-- C9 counterexample: on `"1.2.3"` — a stripped remainder with two decimal
points — the normalizer returns the partially parsed value `1.2`, not the
zero substitution the claim asserts. -/
theorem parseCurrency_multidot_counterexample :
    parseCurrency (.str "1.2.3") = 1.2 ∧ (1.2 : ℚ) ≠ 0 := by
  constructor
  · rw [parseCurrency_str_of_scan _ (false, ['1'], ['2']) (by decide)]
    have h1 : digitsVal ['1'] = 1 := by decide
    have h2 : digitsVal ['2'] = 2 := by decide
    norm_num [floatVal, h1, h2]
  · norm_num

theorem not_whitespace_of_digit (c : Char) (h : c.isDigit = true) : c.isWhitespace = false := by
  have h1 : c ≠ ' ' := by rintro rfl; exact absurd h (by decide)
  have h2 : c ≠ '\t' := by rintro rfl; exact absurd h (by decide)
  have h3 : c ≠ '\r' := by rintro rfl; exact absurd h (by decide)
  have h4 : c ≠ '\n' := by rintro rfl; exact absurd h (by decide)
  simp [Char.isWhitespace, h1, h2, h3, h4]

theorem floatSign_of_ne (c : Char) (cs : List Char) (h1 : c ≠ '-') (h2 : c ≠ '+') :
    floatSign (c :: cs) = (false, c :: cs) := by
  unfold floatSign
  split
  · rename_i heq
    cases heq
    exact absurd rfl h1
  · rename_i heq
    cases heq
    exact absurd rfl h2
  · rfl

theorem takeWhile_digits_append_dot (p t : List Char) (hp : ∀ c ∈ p, c.isDigit = true) :
    (p ++ '.' :: t).takeWhile Char.isDigit = p := by
  induction p with
  | nil => simp [List.takeWhile_cons]
  | cons c p ih =>
    rw [List.cons_append, List.takeWhile_cons,
      hp c (List.mem_cons_self c p), ih (fun x hx => hp x (List.mem_cons_of_mem c hx))]
    simp

theorem dropWhile_digits_append_dot (p t : List Char) (hp : ∀ c ∈ p, c.isDigit = true) :
    (p ++ '.' :: t).dropWhile Char.isDigit = '.' :: t := by
  induction p with
  | nil => simp [List.dropWhile_cons]
  | cons c p ih =>
    rw [List.cons_append, List.dropWhile_cons,
      hp c (List.mem_cons_self c p), ih (fun x hx => hp x (List.mem_cons_of_mem c hx))]
    simp

theorem floatScan_multidot (p q r : List Char) (hp : ∀ c ∈ p, c.isDigit = true)
    (hq : ∀ c ∈ q, c.isDigit = true) (hp0 : p ≠ []) :
    floatScan (String.mk (p ++ '.' :: q ++ '.' :: r)) = some (false, p, q) := by
  obtain ⟨c, p', rfl⟩ : ∃ c p', p = c :: p' := by
    cases p with
    | nil => exact absurd rfl hp0
    | cons c p' => exact ⟨c, p', rfl⟩
  have hc : c.isDigit = true := hp c (List.mem_cons_self c p')
  have hcw : c.isWhitespace = false := not_whitespace_of_digit c hc
  have hcm : c ≠ '-' := by rintro rfl; exact absurd hc (by decide)
  have hcp : c ≠ '+' := by rintro rfl; exact absurd hc (by decide)
  have h1 : (String.mk (c :: p' ++ '.' :: q ++ '.' :: r)).data.dropWhile
      (fun ch => ch.isWhitespace) = c :: p' ++ '.' :: q ++ '.' :: r := by
    show (c :: (p' ++ '.' :: q ++ '.' :: r)).dropWhile (fun ch => ch.isWhitespace) = _
    rw [List.dropWhile_cons]
    simp [hcw]
  have h2 : floatSign (c :: p' ++ '.' :: q ++ '.' :: r) =
      (false, c :: p' ++ '.' :: q ++ '.' :: r) :=
    floatSign_of_ne c _ hcm hcp
  have hsplit : c :: p' ++ '.' :: q ++ '.' :: r = (c :: p') ++ '.' :: (q ++ '.' :: r) := by
    simp
  have h3 : (c :: p' ++ '.' :: q ++ '.' :: r).takeWhile Char.isDigit = c :: p' := by
    rw [hsplit]
    exact takeWhile_digits_append_dot _ _ hp
  have h4 : (c :: p' ++ '.' :: q ++ '.' :: r).dropWhile Char.isDigit = '.' :: (q ++ '.' :: r) := by
    rw [hsplit]
    exact dropWhile_digits_append_dot _ _ hp
  have h5 : (q ++ '.' :: r).takeWhile Char.isDigit = q := takeWhile_digits_append_dot q r hq
  simp only [floatScan, h1, h2, h3, h4, h5, List.isEmpty_cons, Bool.false_and,
    Bool.false_eq_true, if_false]

/-- C9 amended: a stripped remainder with more than one decimal point is
not treated as a parse failure; `parseFloat` consumes the longest
`digits.digits` prefix, so an input of shape `p.q.r` (with `p`, `q`, `r`
digit runs and `p` nonempty) normalizes to the value of `p.q` — the zero
policy applies only when no numeric prefix exists at all. -/
theorem parseCurrency_multidot (p q r : List Char) (hp : ∀ c ∈ p, c.isDigit = true)
    (hq : ∀ c ∈ q, c.isDigit = true) (hr : ∀ c ∈ r, c.isDigit = true) (hp0 : p ≠ []) :
    parseCurrency (.str (String.mk (p ++ '.' :: q ++ '.' :: r))) =
      (digitsVal p : ℚ) + (digitsVal q : ℚ) / 10 ^ q.length := by
  have hkept : ∀ ch ∈ p ++ '.' :: q ++ '.' :: r, keptChar ch = true := by
    intro ch hc
    rcases List.mem_append.mp hc with h1 | h1
    · rcases List.mem_append.mp h1 with h2 | h2
      · simp [keptChar, hp ch h2]
      · rcases List.mem_cons.mp h2 with rfl | h3
        · decide
        · simp [keptChar, hq ch h3]
    · rcases List.mem_cons.mp h1 with rfl | h2
      · decide
      · simp [keptChar, hr ch h2]
  have hstrip : stripNonNumeric (String.mk (p ++ '.' :: q ++ '.' :: r)) =
      String.mk (p ++ '.' :: q ++ '.' :: r) := by
    unfold stripNonNumeric
    rw [show (String.mk (p ++ '.' :: q ++ '.' :: r)).data = p ++ '.' :: q ++ '.' :: r from rfl,
      List.filter_eq_self.mpr hkept]
  rw [parseCurrency_str_of_scan _ (false, p, q) (by rw [hstrip]; exact floatScan_multidot p q r hp hq hp0)]
  simp [floatVal]

/-- C9 amended witness, at the counterexample input `"1.2.3"`. -/
theorem parseCurrency_multidot_witness :
    parseCurrency (.str "1.2.3") = (digitsVal ['1'] : ℚ) + (digitsVal ['2'] : ℚ) / 10 ^ 1 :=
  parseCurrency_multidot ['1'] ['2'] ['3'] (by decide) (by decide) (by decide) (by decide)

end LoanRecon
